import Mathlib

/-!
Shallow embedding of the prompt-resolution and streaming engine of the
Prompt-Studio repository (TypeScript sources under src/).

Modelling conventions:
* JavaScript strings are modelled as `List Char` (abbreviated `Str`);
  string literals containing braces write them as hex escapes.
* `Record<string, string>` objects are modelled as association lists in
  insertion order, matching the enumeration order of `Object.entries`.
* JSON values (results of `JSON.parse`, bodies passed to the clients) are
  modelled by the inductive type `Json`; `JSON.parse` itself is modelled by
  the executable recursive-descent parser `jsonParse` below, restricted to
  the features the engine's inputs exercise (no \u escapes, integral
  numerics).
* The network is modelled by explicit outcome values (`NetOutcome`,
  `ReadEvent`): the async generator `generateStream` becomes a pure
  function from the outcome of its single fetch to the list of chunks it
  yields, in order.
-/

abbrev Str := List Char

/-- Whitespace recognized by the JS trim operations used in the sources
(space, tab, LF, CR cover every character the engine encounters). -/
def isWsChar (c : Char) : Bool :=
  c == ' ' || c == '\t' || c == '\n' || c == '\r'

/-- Model of `String.prototype.trimStart`. -/
def trimStartJs (s : Str) : Str := s.dropWhile isWsChar

/-- Model of `String.prototype.trim`. -/
def trimJs (s : Str) : Str :=
  ((s.dropWhile isWsChar).reverse.dropWhile isWsChar).reverse

/-- Model of `String.prototype.indexOf` for a pattern string: index of the
first occurrence, `none` when absent. -/
def firstIndexOf (pat : Str) : Str → Option Nat
  | [] => if pat = [] then some 0 else none
  | c :: rest =>
    if pat.isPrefixOf (c :: rest) then some 0
    else (firstIndexOf pat rest).map (· + 1)

/-- Model of `String.prototype.split` with a single-character separator
(used as `buffer.split('\n')` in `generateStream`, src/unnamed/part_004). -/
def splitOnChar (sep : Char) : Str → List Str
  | [] => [[]]
  | c :: rest =>
    if c = sep then [] :: splitOnChar sep rest
    else
      match splitOnChar sep rest with
      | q :: qs => (c :: q) :: qs
      | [] => [[]]

/-- Helper for the split-of-append lemma: prepend a string onto the first
part of a part list. -/
def consHead (pre : Str) : List Str → List Str
  | [] => [pre]
  | q :: qs => (pre ++ q) :: qs

/-- Concatenation of a list of text chunks (the full decoded stream). -/
def joinAll (chunks : List Str) : Str := chunks.foldr (· ++ ·) []

/-- Model of `Array.prototype.join` on a list of string parts. -/
def joinWith (sep : Str) : List Str → Str
  | [] => []
  | [q] => q
  | q :: r :: rest => q ++ sep ++ joinWith sep (r :: rest)

/-- Model of `String.prototype.split` with a string separator, written with
explicit fuel so that it is structurally recursive (the separator is always
nonempty at every call site: it is `{` ++ key ++ `}`).  `fuel = s.length`
always suffices because every recursive call consumes at least one
character. -/
def splitOnSepFuel (p : Char) (ps : Str) : Nat → Str → List Str
  | _, [] => [[]]
  | 0, s => [s]
  | fuel + 1, c :: rest =>
    if (p :: ps).isPrefixOf (c :: rest) then
      [] :: splitOnSepFuel p ps fuel (rest.drop ps.length)
    else
      match splitOnSepFuel p ps fuel rest with
      | q :: qs => (c :: q) :: qs
      | [] => [[]]

def splitOnSep (p : Char) (ps : Str) (s : Str) : List Str :=
  splitOnSepFuel p ps s.length s

/-- The literal placeholder text for a key: an open brace, the key, and a
close brace. -/
def wrapKey (k : Str) : Str := '\x7b' :: (k ++ ['\x7d'])

/-- Model of `TokenService.resolveVariables` (src/unnamed/part_003, lines
15-23): for each entry of the mapping, in order, every occurrence of the
literal placeholder for that key is replaced by the entry's value via
split/join.  `val || ''` is the identity on actual strings, so it is not
modelled separately. -/
def resolveVariables (text : Str) (vars : List (Str × Str)) : Str :=
  vars.foldl
    (fun resolved kv => joinWith kv.2 (splitOnSep '\x7b' (kv.1 ++ ['\x7d']) resolved))
    text

/-- Model of one pass of the regex loop in `detectedVariables`
(src/views/CreateView.tsx, lines 220-229).  The regex is `\x7b([^\x7d]+)\x7d`
with the global flag: at an open brace followed by a nonempty run of
non-close-brace characters and then a close brace, the run is captured and
scanning resumes after the close brace; otherwise scanning advances one
character.  Fuel makes the recursion structural; `fuel = s.length`
suffices. -/
def detectVarsFuel : Nat → Str → List Str
  | _, [] => []
  | 0, _ => []
  | fuel + 1, c :: rest =>
    let name := rest.takeWhile (fun x => ¬ x = '\x7d')
    let rest2 := rest.dropWhile (fun x => ¬ x = '\x7d')
    if c = '\x7b' ∧ ¬ name = [] ∧ ¬ rest2 = [] then
      name :: detectVarsFuel fuel rest2.tail
    else
      detectVarsFuel fuel rest

def detectVars (s : Str) : List Str := detectVarsFuel s.length s

/-- First-occurrence de-duplication, the observable behaviour of inserting
into a JS `Set` and converting back with `Array.from`. -/
def dedupFirstAux (seen : List Str) : List Str → List Str
  | [] => []
  | x :: xs => if x ∈ seen then dedupFirstAux seen xs else x :: dedupFirstAux (x :: seen) xs

def dedupFirst (l : List Str) : List Str := dedupFirstAux [] l

/-- Model of the `detectedVariables` memo (src/views/CreateView.tsx, lines
220-229): the system and user templates are concatenated into one string
before the scan. -/
def detectedVariables (systemPrompt userPrompt : Str) : List Str :=
  dedupFirst (detectVars (systemPrompt ++ userPrompt))

/-- Result of the reasoning splitter. -/
structure ParsedOutput where
  thought : Option Str
  content : Str
deriving DecidableEq

def thinkOpenTag : Str := "<think>".toList

def thinkCloseTag : Str := "</think>".toList

/-- Model of the `parsedOutput` memo (src/views/CreateView.tsx, lines
246-269).  Note that the guard trims leading whitespace before testing for
the open marker, while the subsequent slices use the fixed offsets 7 and
`thinkEnd + 8` into the untrimmed string, exactly as the source does. -/
def parsedOutput (output : Str) : ParsedOutput :=
  if output = [] then ⟨none, []⟩
  else if ¬ thinkOpenTag.isPrefixOf (trimStartJs output) then ⟨none, output⟩
  else
    match firstIndexOf thinkCloseTag output with
    | none => ⟨some (trimJs (output.drop 7)), []⟩
    | some thinkEnd =>
      ⟨some (trimJs ((output.drop 7).take (thinkEnd - 7))),
       trimJs (output.drop (thinkEnd + 8))⟩

/-- JSON values, as produced by `JSON.parse` on the payloads the engine
consumes. -/
inductive Json where
  | null
  | bool (b : Bool)
  | num (n : Int)
  | str (s : Str)
  | arr (elements : List Json)
  | obj (fields : List (Str × Json))

/-- Field lookup on a JSON object list (object keys are unique in parsed
JSON, so first match is the value). -/
def lookupField : List (Str × Json) → Str → Option Json
  | [], _ => none
  | (k, v) :: rest, key => if k = key then some v else lookupField rest key

/-- Model of a JS property access `x.f` on a parsed JSON value: the field's
value on an object that has it, `undefined` (here `none`) otherwise. -/
def getField : Json → Str → Option Json
  | Json.obj fields, key => lookupField fields key
  | _, _ => none

def asArr : Json → Option (List Json)
  | Json.arr xs => some xs
  | _ => none

/-- Decoding of the two-character escapes supported by the model of
`JSON.parse` (the engine's inputs use none of them; \u escapes are outside
the model). -/
def escCharJson (c : Char) : Option Char :=
  if c = '"' then some '"'
  else if c = '\\' then some '\\'
  else if c = '/' then some '/'
  else if c = 'n' then some '\n'
  else if c = 't' then some '\t'
  else if c = 'r' then some '\r'
  else if c = 'b' then some (Char.ofNat 8)
  else if c = 'f' then some (Char.ofNat 12)
  else none

/-- JSON string literal body: everything after the opening quote up to the
closing quote.  Returns the decoded string and the remaining input. -/
def parseStringLit : Str → Option (Str × Str)
  | [] => none
  | '"' :: rest => some ([], rest)
  | '\\' :: [] => none
  | '\\' :: e :: rest2 =>
    match escCharJson e with
    | some d =>
      match parseStringLit rest2 with
      | some (s, r) => some (d :: s, r)
      | none => none
    | none => none
  | c :: rest =>
    match parseStringLit rest with
    | some (s, r) => some (c :: s, r)
    | none => none

def isDigitCh (c : Char) : Bool := '0' ≤ c && c ≤ '9'

def digitsToNat (ds : Str) : Nat := ds.foldl (fun acc c => acc * 10 + (c.toNat - 48)) 0

/-- JSON number literal.  The model keeps the integral part (every numeric
the engine sees — token counts, status payloads — is integral); a fraction
or exponent is consumed but ignored. -/
def parseNumberLit (s : Str) : Option (Json × Str) :=
  let signed := match s with
    | '-' :: t => (true, t)
    | _ => (false, s)
  let ds := signed.2.takeWhile isDigitCh
  let r1 := signed.2.dropWhile isDigitCh
  if ds = [] then none
  else
    let r2 := match r1 with
      | '.' :: t => t.dropWhile isDigitCh
      | _ => r1
    let r3 := match r2 with
      | 'e' :: t => (match t with | '+' :: u => u | '-' :: u => u | _ => t).dropWhile isDigitCh
      | 'E' :: t => (match t with | '+' :: u => u | '-' :: u => u | _ => t).dropWhile isDigitCh
      | _ => r2
    let n : Int := Int.ofNat (digitsToNat ds)
    some (Json.num (if signed.1 then -n else n), r3)

def skipWs (s : Str) : Str := s.dropWhile isWsChar

mutual

/-- Recursive-descent JSON value parser, fuel-structural.  Returns the
value and the unconsumed remainder. -/
def parseValue : Nat → Str → Option (Json × Str)
  | 0, _ => none
  | fuel + 1, s =>
    match skipWs s with
    | [] => none
    | '"' :: rest =>
      match parseStringLit rest with
      | some (lit, r) => some (Json.str lit, r)
      | none => none
    | '\x7b' :: rest => parseObjBody fuel rest
    | '[' :: rest => parseArrBody fuel rest
    | 'n' :: rest => if "ull".toList.isPrefixOf rest then some (Json.null, rest.drop 3) else none
    | 't' :: rest => if "rue".toList.isPrefixOf rest then some (Json.bool true, rest.drop 3) else none
    | 'f' :: rest => if "alse".toList.isPrefixOf rest then some (Json.bool false, rest.drop 4) else none
    | s2 => parseNumberLit s2

/-- After an opening bracket: either an immediate close or a comma-separated
element list. -/
def parseArrBody : Nat → Str → Option (Json × Str)
  | 0, _ => none
  | fuel + 1, s =>
    match skipWs s with
    | ']' :: r => some (Json.arr [], r)
    | s2 =>
      match parseElems fuel s2 with
      | some (js, r) => some (Json.arr js, r)
      | none => none

def parseElems : Nat → Str → Option (List Json × Str)
  | 0, _ => none
  | fuel + 1, s =>
    match parseValue fuel s with
    | none => none
    | some (j, r) =>
      match skipWs r with
      | ',' :: r2 =>
        match parseElems fuel r2 with
        | some (js, r3) => some (j :: js, r3)
        | none => none
      | ']' :: r2 => some ([j], r2)
      | _ => none

/-- After an opening brace: either an immediate close or a comma-separated
member list. -/
def parseObjBody : Nat → Str → Option (Json × Str)
  | 0, _ => none
  | fuel + 1, s =>
    match skipWs s with
    | '\x7d' :: r => some (Json.obj [], r)
    | s2 =>
      match parseMembers fuel s2 with
      | some (fs, r) => some (Json.obj fs, r)
      | none => none

def parseMembers : Nat → Str → Option (List (Str × Json) × Str)
  | 0, _ => none
  | fuel + 1, s =>
    match skipWs s with
    | '"' :: rest =>
      match parseStringLit rest with
      | some (key, r) =>
        match skipWs r with
        | ':' :: r2 =>
          match parseValue fuel r2 with
          | some (v, r3) =>
            match skipWs r3 with
            | ',' :: r4 =>
              match parseMembers fuel r4 with
              | some (fs, r5) => some ((key, v) :: fs, r5)
              | none => none
            | '\x7d' :: r4 => some ([(key, v)], r4)
            | _ => none
          | none => none
        | _ => none
      | none => none
    | _ => none

end

/-- Model of `JSON.parse`: the whole input must be one JSON value plus
trailing whitespace, else failure.  The fuel bound is generous: every three
levels of recursion consume at least one input character. -/
def jsonParse (s : Str) : Option Json :=
  match parseValue (3 * s.length + 3) s with
  | some (j, rest) => if skipWs rest = [] then some j else none
  | none => none

/-- One yielded unit of `generateStream` (the `StreamChunk` interface of
src/types.ts): data yields carry `{content, usage}` (content always a
string, usage only when the frame had one), error yields carry only
`{error}`. -/
structure StreamChunk where
  content : Option Str
  usage : Option Json
  error : Option Str

def keyChoices : Str := "choices".toList
def keyDelta : Str := "delta".toList
def keyContent : Str := "content".toList
def keyUsage : Str := "usage".toList
def keyError : Str := "error".toList
def keyMessage : Str := "message".toList

/-- The optional chain `json.choices?.[0]?.delta?.content` of
`generateStream` (src/unnamed/part_004, line 113). -/
def deltaContentVal (j : Json) : Option Json :=
  ((((getField j keyChoices).bind asArr).bind List.head?).bind
    (fun d => getField d keyDelta)).bind
    (fun d => getField d keyContent)

/-- `json.choices?.[0]?.delta?.content || ''`: the string when the field
holds one, the empty string otherwise.  (A present non-string truthy value
never occurs in the wire format the engine consumes and is mapped to the
falsy default here.) -/
def contentOfJson (j : Json) : Str :=
  match deltaContentVal j with
  | some (Json.str s) => s
  | _ => []

/-- The chunk yielded for one successfully parsed data line:
`yield { content, usage }` (src/unnamed/part_004, lines 111-118). -/
def chunkOfJson (j : Json) : StreamChunk :=
  { content := some (contentOfJson j), usage := getField j keyUsage, error := none }

def dataLineTag : Str := "data: ".toList
def doneLine : Str := "data: [DONE]".toList

/-- Processing of one complete line of the streamed body (the `for` body in
`generateStream`, src/unnamed/part_004, lines 106-122): trim; skip blanks
and the end sentinel; on a `data: ` line parse the payload, yielding a
chunk on success and nothing on a parse failure; skip anything else. -/
def processLine (line : Str) : Option StreamChunk :=
  let trimmed := trimJs line
  if trimmed = [] then none
  else if trimmed = doneLine then none
  else if dataLineTag.isPrefixOf trimmed then
    match jsonParse (trimmed.drop 6) with
    | some j => some (chunkOfJson j)
    | none => none
  else none

/-- One result of `reader.read()`: a decoded text chunk, or a transport
failure carrying the thrown error's message.  The end of the event list is
the `done` signal. -/
inductive ReadEvent where
  | chunk (s : Str)
  | fail (msg : Str)

def streamErrMsg : Str := "Stream error".toList

/-- `e.message || 'Stream error'` and the other JS `||` fallbacks on
strings. -/
def jsOr (s d : Str) : Str := if s = [] then d else s

def errChunk (msg : Str) : StreamChunk :=
  { content := none, usage := none, error := some msg }

/-- The read loop of `generateStream` (src/unnamed/part_004, lines 96-124):
the buffer is extended by each decoded chunk, split on newlines, the last
(possibly incomplete) part is kept as the new buffer, the complete lines
are processed in order; `done` ends the loop (discarding the buffer); a
throwing read is caught and yields one error chunk, ending the
generator. -/
def runEvents : Str → List ReadEvent → List StreamChunk
  | _, [] => []
  | buffer, ReadEvent.chunk s :: rest =>
    let parts := splitOnChar '\n' (buffer ++ s)
    parts.dropLast.filterMap processLine ++ runEvents (parts.getLastD []) rest
  | _, ReadEvent.fail msg :: _ => [errChunk (jsOr msg streamErrMsg)]

def httpErrorMsg (status : Nat) : Str := "HTTP Error ".toList ++ (Nat.repr status).toList

/-- `errData?.error?.message || 'HTTP Error <status>'` where `errData` is
the decoded error body, `{}` when the body was not decodable
(src/unnamed/part_004, lines 87-90). -/
def apiErrMsg (errBody : Option Json) (status : Nat) : Str :=
  match errBody with
  | some j =>
    match (getField j keyError).bind (fun e => getField e keyMessage) with
    | some (Json.str s) => jsOr s (httpErrorMsg status)
    | _ => httpErrorMsg status
  | none => httpErrorMsg status

/-- Outcome of the single `fetch` performed by `generateStream`: the fetch
itself threw, or a response arrived with its success flag, status, decoded
error body (for the non-ok path) and body reader events (for the ok
path, `none` when `response.body` is null). -/
inductive NetOutcome where
  | fetchFail (msg : Str)
  | response (ok : Bool) (status : Nat) (errBody : Option Json) (body : Option (List ReadEvent))

/-- Model of `ApiService.generateStream` (src/unnamed/part_004, lines
61-127) as a function from the network outcome to the ordered list of
yielded chunks.  Every `throw` inside the `try` is caught by the single
`catch`, which yields `{ error: e.message || 'Stream error' }`. -/
def generateStream : NetOutcome → List StreamChunk
  | NetOutcome.fetchFail msg => [errChunk (jsOr msg streamErrMsg)]
  | NetOutcome.response ok status errBody body =>
    if ok then
      match body with
      | none => [errChunk (jsOr "No response body".toList streamErrMsg)]
      | some events => runEvents [] events
    else
      [errChunk (jsOr (apiErrMsg errBody status) streamErrMsg)]

/-- The terminal-error discipline of a chunk sequence: an error-carrying
chunk can only be the last one. -/
def errorTerminal (l : List StreamChunk) : Prop :=
  ∀ pre c post, l = pre ++ c :: post → c.error ≠ none → post = []

def keyData : Str := "data".toList
def keyModels : Str := "models".toList
def keyId : Str := "id".toList
def keyName : Str := "name".toList
def unrecognizedMsg : Str := "Unrecognized response format".toList

/-- The string conversion `String(x)` of a defined JSON value, which is
what `Array.prototype.sort`'s default comparator compares.  Container
values never occur in the lists the engine sorts; they get stub keys. -/
def jsStringOf : Json → Str
  | Json.null => "null".toList
  | Json.bool true => "true".toList
  | Json.bool false => "false".toList
  | Json.num n => (Int.repr n).toList
  | Json.str s => s
  | Json.arr _ => []
  | Json.obj _ => "[object Object]".toList

/-- Code-unit lexicographic comparison of strings, as JS `<`/`sort()`
perform it. -/
def strLe : Str → Str → Bool
  | [], _ => true
  | _ :: _, [] => false
  | a :: as, b :: bs => if a.toNat = b.toNat then strLe as bs else decide (a.toNat < b.toNat)

/-- The default order of `Array.prototype.sort`: `undefined` elements (a
missing `id`/`name` field) are placed after every defined element without
any string conversion, and defined elements compare lexicographically on
their string conversions. -/
def leKey (a b : Option Json) : Prop :=
  match a, b with
  | none, none => True
  | none, some _ => False
  | some _, none => True
  | some x, some y => strLe (jsStringOf x) (jsStringOf y) = true

instance : DecidableRel leKey := fun a b =>
  match a, b with
  | none, none => isTrue trivial
  | none, some _ => isFalse id
  | some _, none => isTrue trivial
  | some _, some _ => instDecidableEqBool _ _

instance : IsTotal (Option Json) leKey := by
  constructor
  intro a b
  cases a with
  | none =>
    cases b with
    | none => exact Or.inl trivial
    | some y => exact Or.inr trivial
  | some x =>
    cases b with
    | none => exact Or.inl trivial
    | some y =>
      show strLe (jsStringOf x) (jsStringOf y) = true ∨
        strLe (jsStringOf y) (jsStringOf x) = true
      generalize jsStringOf x = s
      generalize jsStringOf y = t
      induction s generalizing t with
      | nil => left; rfl
      | cons c cs ih =>
        cases t with
        | nil => right; rfl
        | cons d ds =>
          simp only [strLe]
          by_cases h : c.toNat = d.toNat
          · rw [if_pos h, if_pos h.symm]
            exact ih ds
          · rw [if_neg h, if_neg (fun g => h g.symm)]
            simp only [decide_eq_true_eq]
            omega

instance : IsTrans (Option Json) leKey := by
  constructor
  intro a b c hab hbc
  cases c with
  | none =>
    cases a with
    | none => exact trivial
    | some x => exact trivial
  | some z =>
    cases b with
    | none => exact False.elim hbc
    | some y =>
      cases a with
      | none => exact False.elim hab
      | some x =>
        show strLe (jsStringOf x) (jsStringOf z) = true
        have hab2 : strLe (jsStringOf x) (jsStringOf y) = true := hab
        have hbc2 : strLe (jsStringOf y) (jsStringOf z) = true := hbc
        clear hab hbc
        revert hab2 hbc2
        generalize jsStringOf x = s
        generalize jsStringOf y = t
        generalize jsStringOf z = u2
        induction s generalizing t u2 with
        | nil => intro _ _; rfl
        | cons u us ih =>
          cases t with
          | nil => intro h _; simp [strLe] at h
          | cons v vs =>
            cases u2 with
            | nil => intro _ h; simp [strLe] at h
            | cons w ws =>
              simp only [strLe]
              by_cases h1 : u.toNat = v.toNat <;> by_cases h2 : v.toNat = w.toNat
              · rw [if_pos h1, if_pos h2, if_pos (h1.trans h2)]
                exact ih vs ws
              · rw [if_pos h1, if_neg h2, if_neg (fun g => h2 (h1.symm.trans g))]
                intro _ h
                simp only [decide_eq_true_eq] at h ⊢
                omega
              · rw [if_neg h1, if_pos h2, if_neg (fun g => h1 (g.trans h2.symm))]
                intro h _
                simp only [decide_eq_true_eq] at h ⊢
                omega
              · rw [if_neg h1, if_neg h2]
                simp only [decide_eq_true_eq]
                intro g1 g2
                rw [if_neg (by omega)]
                simp only [decide_eq_true_eq]
                omega

/-- The exceptions the body-handling of `fetchModels` can throw: the
explicit `new Error("Unrecognized response format")`, or the TypeError a
plain property access `x.key` raises when `x` is `null` (the one JSON
value on which property access throws; its message text is
engine-specific, so the model keeps the error symbolic — the surrounding
`catch` turns either into a `success: false` result carrying the
message). -/
inductive JsErr where
  | unrecognized
  | typeErrorNull (key : Str)

def isNullJson : Json → Bool
  | Json.null => true
  | _ => false

/-- A plain (non-optional-chained) JS property access `x.key` on a parsed
JSON value: throws a TypeError on `null`, yields the field or `undefined`
otherwise. -/
def getFieldJs : Json → Str → Except JsErr (Option Json)
  | Json.null, key => Except.error (JsErr.typeErrorNull key)
  | Json.obj fields, key => Except.ok (lookupField fields key)
  | _, _ => Except.ok none

/-- `xs.map((m) => m.key)`: left-to-right, aborting at the first element
whose access throws. -/
def mapGetField (key : Str) : List Json → Except JsErr (List (Option Json))
  | [] => Except.ok []
  | m :: rest =>
    match getFieldJs m key with
    | Except.error e => Except.error e
    | Except.ok v =>
      match mapGetField key rest with
      | Except.error e => Except.error e
      | Except.ok vs => Except.ok (v :: vs)

/-- Model of the response-body handling of `ApiService.fetchModels`
(src/unnamed/part_004, lines 155-172): if `data.data` is an array, map
each element to its `id` field; else if `data.models` is an array, map
each element to its `name` field; else throw "Unrecognized response
format".  The accesses `data.data`, `data.models`, `m.id` and `m.name`
are plain and throw on `null`; any thrown error is caught by the
function's `catch` and returned as the failure message.  The extracted
list is returned sorted by `Array.prototype.sort`'s default
comparator. -/
def fetchModelsCore (data : Json) : Except JsErr (List (Option Json)) :=
  match getFieldJs data keyData with
  | Except.error e => Except.error e
  | Except.ok dv =>
    match dv.bind asArr with
    | some xs =>
      match mapGetField keyId xs with
      | Except.error e => Except.error e
      | Except.ok models => Except.ok (List.insertionSort leKey models)
    | none =>
      match getFieldJs data keyModels with
      | Except.error e => Except.error e
      | Except.ok mv =>
        match mv.bind asArr with
        | some xs =>
          match mapGetField keyName xs with
          | Except.error e => Except.error e
          | Except.ok models => Except.ok (List.insertionSort leKey models)
        | none => Except.error JsErr.unrecognized

structure ChatMessage where
  role : Str
  content : Str

/-- Result of `ApiService.generate` as `testConnection` observes it. -/
structure CompletionResponse where
  content : Str
  usage : Option Json
  error : Option Str

def noModelsMsg : Str := "No models configured".toList
def connectedMsg : Str := "Connected".toList
def userRole : Str := "user".toList
def hiText : Str := "Hi".toList

/-- Model of `ApiService.testConnection` (src/unnamed/part_004, lines
178-196), with the generation call abstracted as the function `gen`.  The
result pairs the returned `{success, message}` with the list of generation
calls issued (model and message sequence), so that "no network request"
is the statement that the call list is empty.  `if (result.error)` is a JS
truthiness test, hence the emptiness check. -/
def testConnection (models : List Str) (gen : Str → List ChatMessage → CompletionResponse) :
    (Bool × Str) × List (Str × List ChatMessage) :=
  match models with
  | [] => ((false, noModelsMsg), [])
  | m :: _ =>
    let msgs := [⟨userRole, hiText⟩]
    let r := gen m msgs
    match r.error with
    | some e => if e = [] then ((true, connectedMsg), [(m, msgs)]) else ((false, e), [(m, msgs)])
    | none => ((true, connectedMsg), [(m, msgs)])

/-! Concrete inputs used by the claims. -/

def hiNameT : Str := "Hi \x7bname\x7d".toList
def hiSpaceT : Str := "Hi ".toList
def hiBobT : Str := "Hi Bob".toList
def nameKey : Str := "name".toList
def bobVal : Str := "Bob".toList

def braceAT : Str := "\x7ba\x7d".toList
def aKey : Str := "a".toList

def sysFragT : Str := "x\x7ba".toList
def usrFragT : Str := "b\x7dy".toList
def abName : Str := "ab".toList

def wsThinkOpen : Str := " <think>abc".toList
def wsThinkClosed : Str := " <think>abc</think>xyz".toList
def gtAbcT : Str := ">abc".toList
def abcT : Str := "abc".toList
def xyzT : Str := "xyz".toList

def frameHel : Str :=
  "data: \x7b\"choices\":[\x7b\"delta\":\x7b\"content\":\"Hel\"\x7d\x7d]\x7d\n".toList
def frameLo : Str :=
  "data: \x7b\"choices\":[\x7b\"delta\":\x7b\"content\":\"lo\"\x7d\x7d]\x7d\n".toList
def frameDoneLine : Str := "data: [DONE]\n".toList
def helloStreamText : Str := frameHel ++ frameLo ++ frameDoneLine
def helChunk : StreamChunk := ⟨some "Hel".toList, none, none⟩
def loChunk : StreamChunk := ⟨some "lo".toList, none, none⟩

/-- The complete lines of one decode pass, processed in order. -/
def processLines (lines : List Str) : List StreamChunk := lines.filterMap processLine

def lineA : Str := "data: \x7b\"choices\":[\x7b\"delta\":\x7b\"content\":\"A\"\x7d\x7d]\x7d".toList
def lineB : Str := "data: \x7b\"choices\":[\x7b\"delta\":\x7b\"content\":\"B\"\x7d\x7d]\x7d".toList
def badLine : Str := "data: \x7bnot json\x7d".toList
def chunkA : StreamChunk := ⟨some "A".toList, none, none⟩
def chunkB : StreamChunk := ⟨some "B".toList, none, none⟩

def errBodyBadKey : Json := Json.obj [(keyError, Json.obj [(keyMessage, Json.str "Bad key".toList)])]
def usageOnlyJson : Json := Json.obj [(keyUsage, Json.num 42)]
def helJson : Json :=
  Json.obj [(keyChoices, Json.arr [Json.obj [(keyDelta, Json.obj [(keyContent, Json.str "Hel".toList)])]])]

def dataShapeBody : Json :=
  Json.obj [(keyData, Json.arr [Json.obj [(keyId, Json.str "gpt-4o-mini".toList)],
                                Json.obj [(keyId, Json.str "gpt-4o".toList)]])]
def modelsShapeBody : Json :=
  Json.obj [(keyModels, Json.arr [Json.obj [(keyName, Json.str "llama2".toList)]])]
def fooBody : Json := Json.obj [("foo".toList, Json.num 1)]
def numElemBody : Json := Json.obj [(keyData, Json.arr [Json.num 5])]
def nullElemBody : Json := Json.obj [(keyData, Json.arr [Json.null])]
def emptyMsgBody : Json := Json.obj [(keyError, Json.obj [(keyMessage, Json.str [])])]

/-! Infrastructure lemmas about the newline splitter and the read loop. -/

theorem splitOnChar_ne_nil (sep : Char) (s : Str) : splitOnChar sep s ≠ [] := by
  cases s with
  | nil => simp [splitOnChar]
  | cons c rest =>
    simp only [splitOnChar]
    by_cases h : c = sep
    · simp [h]
    · rw [if_neg h]
      cases splitOnChar sep rest <;> simp

theorem splitOnChar_no_sep (sep : Char) (s : Str) :
    ∀ q ∈ splitOnChar sep s, sep ∉ q := by
  induction s with
  | nil =>
    intro q hq
    simp only [splitOnChar, List.mem_singleton] at hq
    simp [hq]
  | cons c rest ih =>
    intro q hq
    simp only [splitOnChar] at hq
    by_cases h : c = sep
    · rw [if_pos h] at hq
      rcases List.mem_cons.mp hq with h2 | h2
      · simp [h2]
      · exact ih q h2
    · rw [if_neg h] at hq
      cases hsplit : splitOnChar sep rest with
      | nil => exact absurd hsplit (splitOnChar_ne_nil sep rest)
      | cons p ps =>
        rw [hsplit] at hq
        rcases List.mem_cons.mp hq with h2 | h2
        · subst h2
          intro hmem
          rcases List.mem_cons.mp hmem with h3 | h3
          · exact h h3.symm
          · exact ih p (hsplit ▸ List.mem_cons_self p ps) h3
        · exact ih q (hsplit ▸ List.mem_cons_of_mem p h2)

theorem splitOnChar_of_not_mem (sep : Char) (s : Str) (h : sep ∉ s) :
    splitOnChar sep s = [s] := by
  induction s with
  | nil => rfl
  | cons c rest ih =>
    have hc : ¬ c = sep := by
      intro g
      exact h (by rw [g]; exact List.mem_cons_self sep rest)
    have hr := ih (fun g => h (List.mem_cons_of_mem c g))
    simp [splitOnChar, hc, hr]

theorem splitOnChar_append (sep : Char) (x y : Str) :
    splitOnChar sep (x ++ y) =
      (splitOnChar sep x).dropLast ++
        consHead ((splitOnChar sep x).getLastD []) (splitOnChar sep y) := by
  induction x with
  | nil =>
    cases hsplit : splitOnChar sep y with
    | nil => exact absurd hsplit (splitOnChar_ne_nil sep y)
    | cons p ps => simp [splitOnChar, consHead, hsplit]
  | cons c rest ih =>
    by_cases h : c = sep
    · subst h
      show splitOnChar c (c :: (rest ++ y)) = _
      rw [show splitOnChar c (c :: (rest ++ y)) = [] :: splitOnChar c (rest ++ y) by
            simp [splitOnChar]]
      rw [ih]
      rw [show splitOnChar c (c :: rest) = [] :: splitOnChar c rest by simp [splitOnChar]]
      cases hsplit : splitOnChar c rest with
      | nil => exact absurd hsplit (splitOnChar_ne_nil c rest)
      | cons p ps =>
        simp [List.dropLast_cons_of_ne_nil, List.getLastD_cons]
    · show splitOnChar sep (c :: (rest ++ y)) = _
      rw [show splitOnChar sep (c :: (rest ++ y)) =
            (match splitOnChar sep (rest ++ y) with
             | q :: qs => (c :: q) :: qs
             | [] => [[]]) by simp [splitOnChar, h]]
      rw [show splitOnChar sep (c :: rest) =
            (match splitOnChar sep rest with
             | q :: qs => (c :: q) :: qs
             | [] => [[]]) by simp [splitOnChar, h]]
      rw [ih]
      cases hsplit : splitOnChar sep rest with
      | nil => exact absurd hsplit (splitOnChar_ne_nil sep rest)
      | cons p ps =>
        cases ps with
        | nil =>
          cases hy : splitOnChar sep y with
          | nil => exact absurd hy (splitOnChar_ne_nil sep y)
          | cons r rs => simp [consHead]
        | cons p2 ps2 =>
          have hne : (p2 :: ps2).dropLast ++
              consHead ((p2 :: ps2).getLastD p) (splitOnChar sep y) ≠ [] := by
            cases hy : splitOnChar sep y with
            | nil => exact absurd hy (splitOnChar_ne_nil sep y)
            | cons r rs =>
              cases (p2 :: ps2).dropLast <;> simp [consHead]
          cases hmid : (p2 :: ps2).dropLast ++
              consHead ((p2 :: ps2).getLastD p) (splitOnChar sep y) with
          | nil => exact absurd hmid hne
          | cons m ms =>
            simp only [List.getLastD_cons] at hmid ⊢
            rw [List.dropLast_cons₂, List.cons_append, hmid,
                List.dropLast_cons₂, List.cons_append, hmid]

theorem splitOnChar_getLastD_no_sep (sep : Char) (s : Str) :
    sep ∉ (splitOnChar sep s).getLastD [] := by
  cases hsplit : splitOnChar sep s with
  | nil => exact absurd hsplit (splitOnChar_ne_nil sep s)
  | cons p ps =>
    have hmem : (p :: ps).getLastD [] ∈ p :: ps := by
      rw [List.getLastD_cons]
      exact List.getLastD_mem_cons ps p
    exact splitOnChar_no_sep sep s _ (hsplit ▸ hmem)

theorem consHead_ne_nil (pre : Str) (l : List Str) : consHead pre l ≠ [] := by
  cases l <;> simp [consHead]

/-- Chunk-boundary invariance of the read loop: however the stream text is
cut into chunks, the emitted sequence is the processing, in order, of all
completed lines of the concatenated text (the final part staying in the
buffer, unprocessed). -/
theorem runEvents_chunks (cs : List Str) :
    ∀ buffer : Str, '\n' ∉ buffer →
      runEvents buffer (cs.map ReadEvent.chunk) =
        (splitOnChar '\n' (buffer ++ joinAll cs)).dropLast.filterMap processLine := by
  induction cs with
  | nil =>
    intro buffer h
    rw [show joinAll [] = [] from rfl, List.append_nil, splitOnChar_of_not_mem _ _ h]
    rfl
  | cons c cs ih =>
    intro buffer h
    have hL : '\n' ∉ (splitOnChar '\n' (buffer ++ c)).getLastD [] :=
      splitOnChar_getLastD_no_sep '\n' (buffer ++ c)
    have hsingle : splitOnChar '\n' ((splitOnChar '\n' (buffer ++ c)).getLastD [] ++ joinAll cs) =
        consHead ((splitOnChar '\n' (buffer ++ c)).getLastD []) (splitOnChar '\n' (joinAll cs)) := by
      rw [splitOnChar_append, splitOnChar_of_not_mem _ _ hL]
      rfl
    have key : (splitOnChar '\n' ((buffer ++ c) ++ joinAll cs)).dropLast =
        (splitOnChar '\n' (buffer ++ c)).dropLast ++
          (splitOnChar '\n' ((splitOnChar '\n' (buffer ++ c)).getLastD [] ++ joinAll cs)).dropLast := by
      rw [splitOnChar_append '\n' (buffer ++ c) (joinAll cs), hsingle,
        List.dropLast_append_of_ne_nil _ (consHead_ne_nil _ _)]
    show (splitOnChar '\n' (buffer ++ c)).dropLast.filterMap processLine ++
        runEvents ((splitOnChar '\n' (buffer ++ c)).getLastD []) (cs.map ReadEvent.chunk) = _
    rw [ih _ hL]
    rw [show joinAll (c :: cs) = c ++ joinAll cs from rfl, ← List.append_assoc]
    rw [key, List.filterMap_append]

theorem processLine_error_none (line : Str) (c : StreamChunk)
    (h : processLine line = some c) : c.error = none := by
  by_cases h1 : trimJs line = []
  · simp [processLine, h1] at h
  · by_cases h2 : trimJs line = doneLine
    · simp [processLine, h1, h2] at h
    · by_cases h3 : dataLineTag.isPrefixOf (trimJs line)
      · simp only [processLine, if_neg h1, if_neg h2, if_pos h3] at h
        cases hp : jsonParse ((trimJs line).drop 6) with
        | none => rw [hp] at h; exact absurd h (by simp)
        | some j =>
          rw [hp] at h
          have : chunkOfJson j = c := by injection h
          rw [← this]
          rfl
      · simp [processLine, h1, h2, h3] at h

theorem errorTerminal_nil : errorTerminal [] := by
  intro pre c post h _
  cases pre <;> simp at h

theorem errorTerminal_single (x : StreamChunk) : errorTerminal [x] := by
  intro pre c post h _
  cases pre with
  | nil =>
    injection h with _ h2
    exact h2.symm
  | cons p pre2 =>
    injection h with _ h2
    cases pre2 <;> simp at h2

theorem errorTerminal_append (A B : List StreamChunk)
    (hA : ∀ a ∈ A, a.error = none) (hB : errorTerminal B) :
    errorTerminal (A ++ B) := by
  intro pre c post h hc
  rcases List.append_eq_append_iff.mp h.symm with ⟨k, hk1, hk2⟩ | ⟨k, hk1, hk2⟩
  · cases k with
    | nil =>
      exact hB [] c post (by simpa using hk2.symm) hc
    | cons e k2 =>
      injection hk2 with he _
      subst he
      exact absurd (hA c (by rw [hk1]; exact List.mem_append_right pre (List.mem_cons_self c k2))) hc
  · exact hB k c post hk2 hc

theorem runEvents_errorTerminal (evs : List ReadEvent) :
    ∀ buffer, errorTerminal (runEvents buffer evs) := by
  induction evs with
  | nil => intro _; exact errorTerminal_nil
  | cons e rest ih =>
    intro buffer
    cases e with
    | chunk s =>
      exact errorTerminal_append _ _
        (fun a ha => by
          rcases List.mem_filterMap.mp ha with ⟨l, _, hl⟩
          exact processLine_error_none l a hl)
        (ih _)
    | fail msg => exact errorTerminal_single _

theorem runEvents_fail (cs : List Str) :
    ∀ buffer msg rest, ∃ out,
      runEvents buffer (cs.map ReadEvent.chunk ++ ReadEvent.fail msg :: rest) =
        out ++ [errChunk (jsOr msg streamErrMsg)] ∧ ∀ c ∈ out, c.error = none := by
  induction cs with
  | nil =>
    intro buffer msg rest
    exact ⟨[], rfl, by simp⟩
  | cons c cs ih =>
    intro buffer msg rest
    rcases ih ((splitOnChar '\n' (buffer ++ c)).getLastD []) msg rest with ⟨out, h1, h2⟩
    refine ⟨(splitOnChar '\n' (buffer ++ c)).dropLast.filterMap processLine ++ out, ?_, ?_⟩
    · show (splitOnChar '\n' (buffer ++ c)).dropLast.filterMap processLine ++
        runEvents ((splitOnChar '\n' (buffer ++ c)).getLastD [])
          (cs.map ReadEvent.chunk ++ ReadEvent.fail msg :: rest) = _
      rw [h1, List.append_assoc]
    · intro a ha
      rcases List.mem_append.mp ha with h3 | h3
      · rcases List.mem_filterMap.mp h3 with ⟨l, _, hl⟩
        exact processLine_error_none l a hl
      · exact h2 a h3

/-! Infrastructure lemmas for the placeholder-substitution analysis. -/

theorem append_drop_of_pre {α : Type} {x p : List α} (h : x <+: p) :
    x ++ p.drop x.length = p := by
  rcases h with ⟨r, rfl⟩
  rw [List.drop_left]

theorem prefix_append_cases {α : Type} {t v J : List α} (h : t <+: v ++ J) :
    t <+: v ∨ (v <+: t ∧ t.drop v.length <+: J) := by
  induction v generalizing t with
  | nil =>
    right
    exact ⟨List.nil_prefix, by simpa using h⟩
  | cons a v2 ih =>
    cases t with
    | nil => left; exact List.nil_prefix
    | cons b t2 =>
      rw [List.cons_append, List.cons_prefix_cons] at h
      rcases h with ⟨hb, h2⟩
      rcases ih h2 with h3 | ⟨h3, h4⟩
      · left
        rw [List.cons_prefix_cons]
        exact ⟨hb, h3⟩
      · right
        refine ⟨?_, by simpa using h4⟩
        rw [List.cons_prefix_cons]
        exact ⟨hb.symm, h3⟩

theorem infix_append_cases {α : Type} {P x y : List α} (h : P <:+: x ++ y) :
    P <:+: x ∨ P <:+: y ∨
      ∃ s t, s ++ t = P ∧ s ≠ [] ∧ t ≠ [] ∧ s <:+ x ∧ t <+: y := by
  induction x generalizing P with
  | nil => right; left; simpa using h
  | cons a x2 ih =>
    rw [List.cons_append, List.infix_cons_iff] at h
    rcases h with h | h
    · cases P with
      | nil => left; exact List.nil_infix
      | cons b P2 =>
        rw [List.cons_prefix_cons] at h
        rcases h with ⟨hb, h2⟩
        subst hb
        rcases prefix_append_cases h2 with h3 | ⟨h3, h4⟩
        · left
          exact ((List.cons_prefix_cons).mpr ⟨rfl, h3⟩).isInfix
        · by_cases ht : P2.drop x2.length = []
          · have hx2 : x2 = P2 :=
              h3.eq_of_length_le (List.drop_eq_nil_iff.mp ht)
            left
            rw [← hx2]
          · right; right
            refine ⟨b :: x2, P2.drop x2.length, ?_, by simp, ht, List.suffix_refl _, h4⟩
            rw [List.cons_append, append_drop_of_pre h3]
    · rcases ih h with h3 | h3 | ⟨s, t, hst, hs, ht, hsx, hty⟩
      · left; exact List.infix_cons h3
      · right; left; exact h3
      · right; right
        exact ⟨s, t, hst, hs, ht, hsx.trans (List.suffix_cons a x2), hty⟩

theorem cons_infix_append_right {α : Type} {c : α} {t v J : List α}
    (hc : c ∉ v) (h : (c :: t) <:+: v ++ J) : (c :: t) <:+: J := by
  induction v with
  | nil => simpa using h
  | cons a v2 ih =>
    rw [List.cons_append, List.infix_cons_iff] at h
    rcases h with h | h
    · rw [List.cons_prefix_cons] at h
      exact absurd (show c ∈ a :: v2 by rw [h.1]; exact List.mem_cons_self a v2) hc
    · exact ih (fun g => hc (List.mem_cons_of_mem a g)) h

theorem infix_of_infix_wrap {v k : Str} (hl : '\x7b' ∉ v) (hr : '\x7d' ∉ v)
    (h : v <:+: wrapKey k) : v <:+: k := by
  unfold wrapKey at h
  rw [List.infix_cons_iff] at h
  rcases h with h | h
  · cases v with
    | nil => exact List.nil_infix
    | cons b v2 =>
      rw [List.cons_prefix_cons] at h
      exact absurd (show '\x7b' ∈ b :: v2 by rw [← h.1]; exact List.mem_cons_self b v2) hl
  · have h2 : v.reverse <:+: ('\x7d' :: k.reverse) := by
      have h3 := List.reverse_infix.mpr h
      rwa [List.reverse_append, List.reverse_singleton, List.singleton_append] at h3
    rw [List.infix_cons_iff] at h2
    rcases h2 with h2 | h2
    · cases hv : v.reverse with
      | nil =>
        rw [List.reverse_eq_nil_iff.mp hv]
        exact List.nil_infix
      | cons b v2 =>
        rw [hv, List.cons_prefix_cons] at h2
        refine absurd (show '\x7d' ∈ v by
          rw [← List.mem_reverse, hv, ← h2.1]
          exact List.mem_cons_self b v2) hr
    · rw [List.reverse_infix] at h2
      exact h2

theorem wrap_infix_joinWith {v k : Str} (hl : '\x7b' ∉ v) (hr : '\x7d' ∉ v) :
    ∀ parts : List Str, wrapKey k <:+: joinWith v parts →
      (∃ q ∈ parts, wrapKey k <:+: q) ∨ v <:+: k := by
  intro parts
  induction parts with
  | nil =>
    intro h
    rw [show joinWith v [] = [] from rfl, List.infix_nil] at h
    exact absurd h (by simp [wrapKey])
  | cons q rest ih =>
    intro h
    cases rest with
    | nil =>
      left
      exact ⟨q, List.mem_cons_self q [], h⟩
    | cons r rest2 =>
      have h2 : wrapKey k <:+: q ++ (v ++ joinWith v (r :: rest2)) := by
        rw [← List.append_assoc]
        exact h
      rcases infix_append_cases h2 with h3 | h3 | ⟨s, t, hst, hs, ht, hsx, hty⟩
      · left; exact ⟨q, List.mem_cons_self q _, h3⟩
      · have h4 : wrapKey k <:+: joinWith v (r :: rest2) :=
          cons_infix_append_right hl h3
        rcases ih h4 with ⟨p2, hp, hinf⟩ | h5
        · left; exact ⟨p2, List.mem_cons_of_mem q hp, hinf⟩
        · right; exact h5
      · rcases prefix_append_cases hty with h4 | ⟨h4, _⟩
        · exfalso
          have hlast : '\x7d' ∈ t := by
            have hrev : t.reverse ++ s.reverse = '\x7d' :: ('\x7b' :: k).reverse := by
              have h5 := congrArg List.reverse hst
              rw [List.reverse_append] at h5
              rw [h5]
              show (wrapKey k).reverse = _
              rw [show wrapKey k = ('\x7b' :: k) ++ ['\x7d'] by simp [wrapKey],
                List.reverse_append, List.reverse_singleton, List.singleton_append]
            cases htr : t.reverse with
            | nil => exact absurd (List.reverse_eq_nil_iff.mp htr) ht
            | cons b tr =>
              rw [htr, List.cons_append] at hrev
              injection hrev with hb _
              rw [← List.mem_reverse, htr, ← hb]
              exact List.mem_cons_self b tr
          exact hr (h4.subset hlast)
        · right
          have h6 : v <:+: wrapKey k := by
            have h7 : t <:+: wrapKey k := by
              rw [← hst]
              exact (List.suffix_append s t).isInfix
            exact h4.isInfix.trans h7
          exact infix_of_infix_wrap hl hr h6

theorem splitOnSepFuel_ne_nil (p : Char) (ps : Str) (fuel : Nat) (s : Str) :
    splitOnSepFuel p ps fuel s ≠ [] := by
  cases s with
  | nil => cases fuel <;> simp [splitOnSepFuel]
  | cons c rest =>
    cases fuel with
    | zero => simp [splitOnSepFuel]
    | succ fuel =>
      simp only [splitOnSepFuel]
      by_cases h : (p :: ps).isPrefixOf (c :: rest)
      · simp [h]
      · rw [if_neg h]
        cases splitOnSepFuel p ps fuel rest <;> simp

theorem splitOnSepFuel_head_pre (p : Char) (ps : Str) :
    ∀ fuel s q qs, splitOnSepFuel p ps fuel s = q :: qs → q <+: s := by
  intro fuel
  induction fuel with
  | zero =>
    intro s q qs h
    cases s with
    | nil =>
      simp only [splitOnSepFuel] at h
      injection h with h1 _
      rw [← h1]
    | cons c rest =>
      simp only [splitOnSepFuel] at h
      injection h with h1 _
      rw [← h1]
  | succ fuel ih =>
    intro s q qs h
    cases s with
    | nil =>
      simp only [splitOnSepFuel] at h
      injection h with h1 _
      rw [← h1]
    | cons c rest =>
      simp only [splitOnSepFuel] at h
      by_cases hp : (p :: ps).isPrefixOf (c :: rest)
      · rw [if_pos hp] at h
        injection h with h1 _
        rw [← h1]
        exact List.nil_prefix
      · rw [if_neg hp] at h
        cases hs : splitOnSepFuel p ps fuel rest with
        | nil => exact absurd hs (splitOnSepFuel_ne_nil p ps fuel rest)
        | cons q2 qs2 =>
          rw [hs] at h
          injection h with h1 _
          rw [← h1, List.cons_prefix_cons]
          exact ⟨rfl, ih rest q2 qs2 hs⟩

theorem splitOnSepFuel_no_sep (p : Char) (ps : Str) :
    ∀ fuel s, s.length ≤ fuel →
      ∀ q ∈ splitOnSepFuel p ps fuel s, ¬ (p :: ps) <:+: q := by
  intro fuel
  induction fuel with
  | zero =>
    intro s hlen q hq
    have hnil : s = [] := List.length_eq_zero.mp (Nat.le_zero.mp hlen)
    subst hnil
    simp only [splitOnSepFuel, List.mem_singleton] at hq
    subst hq
    rw [List.infix_nil]
    simp
  | succ fuel ih =>
    intro s hlen q hq
    cases s with
    | nil =>
      simp only [splitOnSepFuel, List.mem_singleton] at hq
      subst hq
      rw [List.infix_nil]
      simp
    | cons c rest =>
      simp only [splitOnSepFuel] at hq
      by_cases hp : (p :: ps).isPrefixOf (c :: rest)
      · rw [if_pos hp] at hq
        rcases List.mem_cons.mp hq with h2 | h2
        · subst h2
          rw [List.infix_nil]
          simp
        · refine ih (rest.drop ps.length) ?_ q h2
          rw [List.length_drop]
          simp only [List.length_cons] at hlen
          omega
      · rw [if_neg hp] at hq
        have hlen2 : rest.length ≤ fuel := by
          simp only [List.length_cons] at hlen
          omega
        cases hs : splitOnSepFuel p ps fuel rest with
        | nil => exact absurd hs (splitOnSepFuel_ne_nil p ps fuel rest)
        | cons q2 qs2 =>
          rw [hs] at hq
          rcases List.mem_cons.mp hq with h2 | h2
          · subst h2
            intro hinf
            rw [List.infix_cons_iff] at hinf
            rcases hinf with hinf | hinf
            · have hq2 : q2 <+: rest := splitOnSepFuel_head_pre p ps fuel rest q2 qs2 hs
              have h3 : (p :: ps) <+: c :: rest :=
                hinf.trans ((List.cons_prefix_cons).mpr ⟨rfl, hq2⟩)
              exact hp (List.isPrefixOf_iff_prefix.mpr h3)
            · exact ih rest hlen2 q2 (by rw [hs]; exact List.mem_cons_self q2 qs2) hinf
          · exact ih rest hlen2 q (by rw [hs]; exact List.mem_cons_of_mem q2 h2)

theorem splitOnSepFuel_part_within (p : Char) (ps : Str) :
    ∀ fuel s, ∀ q ∈ splitOnSepFuel p ps fuel s, q <:+: s := by
  intro fuel
  induction fuel with
  | zero =>
    intro s q hq
    cases s with
    | nil =>
      simp only [splitOnSepFuel, List.mem_singleton] at hq
      subst hq
      exact List.infix_refl _
    | cons c rest =>
      simp only [splitOnSepFuel, List.mem_singleton] at hq
      subst hq
      exact List.infix_refl _
  | succ fuel ih =>
    intro s q hq
    cases s with
    | nil =>
      simp only [splitOnSepFuel, List.mem_singleton] at hq
      subst hq
      exact List.infix_refl _
    | cons c rest =>
      simp only [splitOnSepFuel] at hq
      by_cases hp : (p :: ps).isPrefixOf (c :: rest)
      · rw [if_pos hp] at hq
        rcases List.mem_cons.mp hq with h2 | h2
        · subst h2
          exact List.nil_infix
        · have h3 := ih (rest.drop ps.length) q h2
          exact List.infix_cons (h3.trans (List.drop_suffix ps.length rest).isInfix)
      · rw [if_neg hp] at hq
        cases hs : splitOnSepFuel p ps fuel rest with
        | nil => exact absurd hs (splitOnSepFuel_ne_nil p ps fuel rest)
        | cons q2 qs2 =>
          rw [hs] at hq
          rcases List.mem_cons.mp hq with h2 | h2
          · subst h2
            exact ((List.cons_prefix_cons).mpr
              ⟨rfl, splitOnSepFuel_head_pre p ps fuel rest q2 qs2 hs⟩).isInfix
          · exact List.infix_cons
              (ih rest q (by rw [hs]; exact List.mem_cons_of_mem q2 h2))

/-- One substitution step cannot leave or create the placeholder of the key
just substituted (values free of braces), and cannot create the placeholder
of any key the value is not a substring of. -/
theorem step_no_wrap {r k j v : Str} (hl : '\x7b' ∉ v) (hr : '\x7d' ∉ v)
    (hvk : ¬ v <:+: k)
    (hcase : k = j ∨ ¬ wrapKey k <:+: r) :
    ¬ wrapKey k <:+: joinWith v (splitOnSep '\x7b' (j ++ ['\x7d']) r) := by
  intro h
  rcases wrap_infix_joinWith hl hr _ h with ⟨q, hq, hinf⟩ | h2
  · rcases hcase with rfl | hnr
    · exact splitOnSepFuel_no_sep '\x7b' (k ++ ['\x7d']) r.length r le_rfl q hq hinf
    · exact hnr (hinf.trans (splitOnSepFuel_part_within '\x7b' (j ++ ['\x7d']) r.length r q hq))
  · exact hvk h2

/-- Accumulator form of the no-reintroduction theorem: `K` collects the
keys already substituted. -/
theorem resolve_no_wrap_aux :
    ∀ (V : List (Str × Str)) (K : List Str) (r : Str),
      (∀ kv ∈ V, '\x7b' ∉ kv.2 ∧ '\x7d' ∉ kv.2) →
      (∀ kv ∈ V, (∀ k ∈ K, ¬ kv.2 <:+: k) ∧ (∀ kv2 ∈ V, ¬ kv.2 <:+: kv2.1)) →
      (∀ k ∈ K, ¬ wrapKey k <:+: r) →
      ∀ k, (k ∈ K ∨ k ∈ V.map Prod.fst) →
        ¬ wrapKey k <:+: V.foldl
          (fun resolved kv => joinWith kv.2 (splitOnSep '\x7b' (kv.1 ++ ['\x7d']) resolved)) r := by
  intro V
  induction V with
  | nil =>
    intro K r _ _ hK k hk
    rcases hk with hk | hk
    · exact hK k hk
    · simp at hk
  | cons jv V2 ih =>
    intro K r hvals hsub hK k hk
    have hjmem : jv ∈ jv :: V2 := List.mem_cons_self jv V2
    have hKnew : ∀ k2 ∈ jv.1 :: K,
        ¬ wrapKey k2 <:+: joinWith jv.2 (splitOnSep '\x7b' (jv.1 ++ ['\x7d']) r) := by
      intro k2 hk2
      rcases List.mem_cons.mp hk2 with h2 | h2
      · subst h2
        exact step_no_wrap (hvals jv hjmem).1 (hvals jv hjmem).2
          ((hsub jv hjmem).2 jv hjmem) (Or.inl rfl)
      · exact step_no_wrap (hvals jv hjmem).1 (hvals jv hjmem).2
          ((hsub jv hjmem).1 k2 h2) (Or.inr (hK k2 h2))
    show ¬ wrapKey k <:+: V2.foldl _ (joinWith jv.2 (splitOnSep '\x7b' (jv.1 ++ ['\x7d']) r))
    refine ih (jv.1 :: K) _ (fun kv hkv => hvals kv (List.mem_cons_of_mem jv hkv)) ?_ hKnew k ?_
    · intro kv hkv
      constructor
      · intro k2 hk2
        rcases List.mem_cons.mp hk2 with h2 | h2
        · subst h2
          exact (hsub kv (List.mem_cons_of_mem jv hkv)).2 jv hjmem
        · exact (hsub kv (List.mem_cons_of_mem jv hkv)).1 k2 h2
      · intro kv2 hkv2
        exact (hsub kv (List.mem_cons_of_mem jv hkv)).2 kv2 (List.mem_cons_of_mem jv hkv2)
    · rcases hk with hk | hk
      · exact Or.inl (List.mem_cons_of_mem jv.1 hk)
      · rw [List.map_cons] at hk
        rcases List.mem_cons.mp hk with h2 | h2
        · exact Or.inl (by rw [h2]; exact List.mem_cons_self jv.1 K)
        · exact Or.inr h2

/-! Infrastructure lemmas for the models-listing analysis. -/

theorem getFieldJs_of_not_null (m : Json) (key : Str) (h : isNullJson m = false) :
    getFieldJs m key = Except.ok (getField m key) := by
  cases m <;> first | rfl | simp [isNullJson] at h

theorem getFieldJs_of_field_some (d : Json) (key : Str) (v : Json)
    (h : getField d key = some v) : getFieldJs d key = Except.ok (some v) := by
  cases d with
  | obj fields =>
    show Except.ok (lookupField fields key) = _
    rw [show lookupField fields key = getField (Json.obj fields) key from rfl, h]
  | null => simp [getField] at h
  | bool b => simp [getField] at h
  | num n => simp [getField] at h
  | str s => simp [getField] at h
  | arr xs => simp [getField] at h

theorem mapGetField_ok (key : Str) (xs : List Json) (h : ∀ m ∈ xs, isNullJson m = false) :
    mapGetField key xs = Except.ok (xs.map (fun m => getField m key)) := by
  induction xs with
  | nil => rfl
  | cons m rest ih =>
    show (match getFieldJs m key with
          | Except.error e => Except.error e
          | Except.ok v =>
            match mapGetField key rest with
            | Except.error e => Except.error e
            | Except.ok vs => Except.ok (v :: vs)) = _
    rw [getFieldJs_of_not_null m key (h m (List.mem_cons_self m rest)),
      ih (fun m2 hm2 => h m2 (List.mem_cons_of_mem m hm2))]
    rfl

theorem mapGetField_null (key : Str) (rest : List Json) :
    ∀ pre : List Json, (∀ m ∈ pre, isNullJson m = false) →
      mapGetField key (pre ++ Json.null :: rest) =
        Except.error (JsErr.typeErrorNull key) := by
  intro pre
  induction pre with
  | nil => intro _; rfl
  | cons m pre2 ih =>
    intro h
    show (match getFieldJs m key with
          | Except.error e => Except.error e
          | Except.ok v =>
            match mapGetField key (pre2 ++ Json.null :: rest) with
            | Except.error e => Except.error e
            | Except.ok vs => Except.ok (v :: vs)) = _
    rw [getFieldJs_of_not_null m key (h m (List.mem_cons_self m pre2)),
      ih (fun m2 hm2 => h m2 (List.mem_cons_of_mem m hm2))]

/-! The claims. -/

/-- Claim C1, counterexample: with an empty mapping, `resolveVariables`
leaves the placeholder verbatim, so the claimed equation
resolve("Hi (name)", empty) = "Hi " is false: the result is the unchanged
template. -/
theorem C1_resolve_absent_cex :
    resolveVariables hiNameT [] ≠ hiSpaceT ∧ resolveVariables hiNameT [] = hiNameT := by
  exact ⟨by decide, rfl⟩

/-- Claim C1, amended: occurrences of a placeholder whose key is present in
the mapping are replaced by the mapped value; keys absent from the mapping
leave their placeholders unchanged — in particular an empty mapping returns
the text unchanged, and resolve("Hi (name)", name := "Bob") = "Hi Bob". -/
theorem C1_resolve_amended :
    resolveVariables hiNameT [(nameKey, bobVal)] = hiBobT ∧
    resolveVariables hiNameT [] = hiNameT ∧
    ∀ t : Str, resolveVariables t [] = t :=
  ⟨by decide, rfl, fun _ => rfl⟩

/-- Claim C2: the splitter rules fail on output with leading whitespace —
the code slices from fixed offset 7 of the untrimmed text although the
marker test tolerated leading whitespace, so for " <think>abc" it returns
thought ">abc" (a marker remnant) instead of "abc"; same offset slip in
the closed-marker case. -/
theorem C2_parsedOutput_ws_divergence :
    parsedOutput wsThinkOpen = ⟨some gtAbcT, []⟩ ∧
    parsedOutput wsThinkClosed = ⟨some gtAbcT, xyzT⟩ ∧
    gtAbcT ≠ abcT := by
  exact ⟨by decide, by decide, by decide⟩

/-- Claim C3: the chunk built from a parsed data line carries a nonempty
content fragment only when `choices[0].delta.content` is present (absent
delta content gives the empty fragment), and carries a usage snapshot
exactly when the top-level `usage` field is present. -/
theorem C3_chunk_field_presence :
    ∀ j : Json,
      (deltaContentVal j = none → (chunkOfJson j).content = some []) ∧
      ((chunkOfJson j).usage = getField j keyUsage) ∧
      ((chunkOfJson j).content ≠ some [] → deltaContentVal j ≠ none) := by
  intro j
  refine ⟨?_, rfl, ?_⟩
  · intro h
    show some (contentOfJson j) = some []
    unfold contentOfJson
    rw [h]
  · intro h hnone
    apply h
    show some (contentOfJson j) = some []
    unfold contentOfJson
    rw [hnone]

theorem C3_chunk_field_presence_wit :
    (chunkOfJson usageOnlyJson).content = some [] ∧
    (chunkOfJson usageOnlyJson).usage = some (Json.num 42) ∧
    deltaContentVal helJson ≠ none :=
  ⟨(C3_chunk_field_presence usageOnlyJson).1 rfl,
   by rw [(C3_chunk_field_presence usageOnlyJson).2.1]; rfl,
   (C3_chunk_field_presence helJson).2.2 (by decide)⟩

/-- Claim C4, counterexample: a value may itself contain a placeholder, and
substitution then reintroduces it — with template "(a)" and the mapping
a := "(a)", the result still contains the placeholder of key "a", which is
in both the detected set and the mapping's keys. -/
theorem C4_resolve_reintro_cex :
    aKey ∈ detectVars braceAT ∧
    aKey ∈ List.map Prod.fst [(aKey, braceAT)] ∧
    wrapKey aKey <:+: resolveVariables braceAT [(aKey, braceAT)] := by
  exact ⟨by decide, by decide, by decide⟩

/-- Claim C4, amended: when no mapped value contains a brace and no mapped
value occurs as a substring of any key, the resolved text contains no
literal placeholder of any key of the mapping (hence in particular none
whose key is also detected in the template). -/
theorem C4_resolve_no_reintroduction (t : Str) (V : List (Str × Str))
    (hv : ∀ kv ∈ V, '\x7b' ∉ kv.2 ∧ '\x7d' ∉ kv.2)
    (hs : ∀ kv ∈ V, ∀ kv2 ∈ V, ¬ kv.2 <:+: kv2.1) :
    ∀ k ∈ V.map Prod.fst, ¬ wrapKey k <:+: resolveVariables t V := by
  intro k hk
  exact resolve_no_wrap_aux V [] t hv
    (fun kv hkv => ⟨fun k2 hk2 => absurd hk2 (List.not_mem_nil k2), hs kv hkv⟩)
    (fun k2 hk2 => absurd hk2 (List.not_mem_nil k2))
    k (Or.inr hk)

theorem C4_resolve_no_reintroduction_wit :
    ¬ wrapKey nameKey <:+: resolveVariables hiNameT [(nameKey, bobVal)] :=
  C4_resolve_no_reintroduction hiNameT [(nameKey, bobVal)]
    (by decide) (by decide) nameKey (by decide)

/-- Claim C5: however the three frames are cut into chunks (mid-line splits
included), the consumer sees exactly the two content increments "Hel" and
"lo", in order, with no usage and no error. -/
theorem C5_stream_chunk_boundaries :
    ∀ cs : List Str, joinAll cs = helloStreamText →
      runEvents [] (cs.map ReadEvent.chunk) = [helChunk, loChunk] := by
  intro cs h
  rw [runEvents_chunks cs [] (by simp), h]
  rfl

theorem C5_stream_chunk_boundaries_wit :
    runEvents [] ([helloStreamText.take 29, helloStreamText.drop 29].map ReadEvent.chunk) =
      [helChunk, loChunk] :=
  C5_stream_chunk_boundaries [helloStreamText.take 29, helloStreamText.drop 29]
    (by show helloStreamText.take 29 ++ (helloStreamText.drop 29 ++ []) = helloStreamText
        rw [List.append_nil, List.take_append_drop])

/-- Claim C6: a non-ok response yields exactly one increment, an error
carrying the nested error message when decodable and nonempty, else the
generic status message; a fetch failure yields one error increment; a
transport failure mid-stream yields the already-delivered error-free
content followed by exactly one terminal error; and in every run an
error-carrying increment can only be the last one. -/
theorem C6_stream_error_handling :
    (∀ (status : Nat) (j : Json) (body : Option (List ReadEvent)) (s : Str), s ≠ [] →
        (getField j keyError).bind (fun e => getField e keyMessage) = some (Json.str s) →
        generateStream (NetOutcome.response false status (some j) body) = [errChunk s]) ∧
    (∀ (status : Nat) (body : Option (List ReadEvent)),
        generateStream (NetOutcome.response false status none body) =
          [errChunk (httpErrorMsg status)]) ∧
    (∀ msg, generateStream (NetOutcome.fetchFail msg) = [errChunk (jsOr msg streamErrMsg)]) ∧
    (∀ (cs : List Str) (msg : Str) (rest : List ReadEvent) (st : Nat) (eb : Option Json),
        ∃ out,
          generateStream (NetOutcome.response true st eb
              (some (cs.map ReadEvent.chunk ++ ReadEvent.fail msg :: rest))) =
            out ++ [errChunk (jsOr msg streamErrMsg)] ∧ ∀ c ∈ out, c.error = none) ∧
    (∀ o : NetOutcome, errorTerminal (generateStream o)) := by
  refine ⟨?_, ?_, ?_, ?_, ?_⟩
  · intro status j body s hs hmsg
    show [errChunk (jsOr (apiErrMsg (some j) status) streamErrMsg)] = _
    simp only [apiErrMsg, hmsg, jsOr, if_neg hs]
  · intro status body
    show [errChunk (jsOr (apiErrMsg none status) streamErrMsg)] = _
    have hne : httpErrorMsg status ≠ [] := by
      unfold httpErrorMsg
      rw [show "HTTP Error ".toList = 'H' :: "TTP Error ".toList from rfl]
      simp
    simp only [apiErrMsg, jsOr, if_neg hne]
  · intro msg
    rfl
  · intro cs msg rest st eb
    exact runEvents_fail cs [] msg rest
  · intro o
    cases o with
    | fetchFail msg => exact errorTerminal_single _
    | response ok status errBody body =>
      cases ok with
      | false => exact errorTerminal_single _
      | true =>
        cases body with
        | none => exact errorTerminal_single _
        | some evs => exact runEvents_errorTerminal evs []

theorem C6_stream_error_handling_wit :
    generateStream (NetOutcome.response false 401 (some errBodyBadKey) none) =
      [errChunk "Bad key".toList] :=
  C6_stream_error_handling.1 401 errBodyBadKey none "Bad key".toList (by decide) rfl

/-- Claim C7: a line whose payload fails JSON decoding contributes no
increment and does not abort processing — removing it from any line
sequence leaves the other lines' increments unchanged; concretely, a
well-formed frame on each side of `data: (not json)` still delivers its
content. -/
theorem C7_malformed_line_skipped :
    (∀ (pre suf : List Str) (b : Str), processLine b = none →
        processLines (pre ++ b :: suf) = processLines pre ++ processLines suf) ∧
    processLine badLine = none ∧
    processLines [lineA, badLine, lineB] = [chunkA, chunkB] := by
  refine ⟨?_, rfl, rfl⟩
  intro pre suf b hb
  unfold processLines
  rw [List.filterMap_append, List.filterMap_cons, hb]

theorem C7_malformed_line_skipped_wit :
    processLines ([lineA] ++ badLine :: [lineB]) =
      processLines [lineA] ++ processLines [lineB] :=
  C7_malformed_line_skipped.1 [lineA] [lineB] badLine rfl

/-- Claim C8, counterexample: a body whose `data` field is an array of
non-objects is not one of the two recognized shapes, yet the operation
succeeds (with an undefined identifier) instead of failing. -/
theorem C8_models_shape_cex :
    fetchModelsCore numElemBody = Except.ok [none] := rfl

/-- Claim C8, amended: when the `data` field is an array of non-null
values the operation succeeds and returns exactly the elements' `id`
fields (undefined for elements lacking one — element shape is otherwise
not validated) sorted by the default comparator: defined identifiers
lexicographically on their string conversions, undefined entries last;
likewise for `models`/`name` when `data` is not an array; when neither
field is an array (and the body is not null) it fails with "Unrecognized
response format"; a null element aborts the extraction with a TypeError
failure (so does a null body), distinct from the unrecognized-format
failure; a failure never carries a list. -/
theorem C8_fetchModels_amended :
    (∀ (d : Json) (xs : List Json), getField d keyData = some (Json.arr xs) →
        (∀ m ∈ xs, isNullJson m = false) →
        ∃ l, fetchModelsCore d = Except.ok l ∧
          l.Perm (xs.map (fun m => getField m keyId)) ∧ l.Sorted leKey) ∧
    (∀ (d : Json) (xs : List Json), (getField d keyData).bind asArr = none →
        getField d keyModels = some (Json.arr xs) →
        (∀ m ∈ xs, isNullJson m = false) →
        ∃ l, fetchModelsCore d = Except.ok l ∧
          l.Perm (xs.map (fun m => getField m keyName)) ∧ l.Sorted leKey) ∧
    (∀ d : Json, isNullJson d = false →
        (getField d keyData).bind asArr = none →
        (getField d keyModels).bind asArr = none →
        fetchModelsCore d = Except.error JsErr.unrecognized) ∧
    (∀ (d : Json) (pre rest : List Json),
        getField d keyData = some (Json.arr (pre ++ Json.null :: rest)) →
        (∀ m ∈ pre, isNullJson m = false) →
        fetchModelsCore d = Except.error (JsErr.typeErrorNull keyId)) ∧
    (fetchModelsCore Json.null = Except.error (JsErr.typeErrorNull keyData)) := by
  refine ⟨?_, ?_, ?_, ?_, rfl⟩
  · intro d xs h hnn
    refine ⟨List.insertionSort leKey (xs.map (fun m => getField m keyId)), ?_,
      List.perm_insertionSort _ _, List.sorted_insertionSort _ _⟩
    have h1 := getFieldJs_of_field_some d keyData (Json.arr xs) h
    simp only [fetchModelsCore, h1, Option.some_bind, asArr, mapGetField_ok keyId xs hnn]
  · intro d xs h1 h2 hnn
    refine ⟨List.insertionSort leKey (xs.map (fun m => getField m keyName)), ?_,
      List.perm_insertionSort _ _, List.sorted_insertionSort _ _⟩
    have hobj : isNullJson d = false := by
      cases d <;> first | rfl | simp [getField] at h2
    have hA := getFieldJs_of_not_null d keyData hobj
    have hB := getFieldJs_of_field_some d keyModels (Json.arr xs) h2
    simp only [fetchModelsCore, hA, h1, hB, Option.some_bind]
    simp only [asArr, mapGetField_ok keyName xs hnn]
  · intro d hdn h1 h2
    have hA := getFieldJs_of_not_null d keyData hdn
    have hB := getFieldJs_of_not_null d keyModels hdn
    simp only [fetchModelsCore, hA, hB, h1, h2]
  · intro d pre rest h hpre
    have h1 := getFieldJs_of_field_some d keyData (Json.arr (pre ++ Json.null :: rest)) h
    simp only [fetchModelsCore, h1, Option.some_bind, asArr,
      mapGetField_null keyId rest pre hpre]

theorem C8_fetchModels_amended_wit :
    (∃ l, fetchModelsCore dataShapeBody = Except.ok l ∧
        l.Perm ([Json.obj [(keyId, Json.str "gpt-4o-mini".toList)],
                 Json.obj [(keyId, Json.str "gpt-4o".toList)]].map (fun m => getField m keyId)) ∧
        l.Sorted leKey) ∧
    fetchModelsCore fooBody = Except.error JsErr.unrecognized ∧
    fetchModelsCore nullElemBody = Except.error (JsErr.typeErrorNull keyId) :=
  ⟨C8_fetchModels_amended.1 dataShapeBody _ rfl (by decide),
   C8_fetchModels_amended.2.2.1 fooBody rfl rfl rfl,
   C8_fetchModels_amended.2.2.2.1 nullElemBody [] [] rfl
     (fun m hm => absurd hm (List.not_mem_nil m))⟩

/-- Claim C9: with an empty model list the probe fails immediately with the
descriptive message and issues no generation call; with a nonempty list it
issues exactly one call, with the first model and the single fixed user
message, and succeeds exactly when that call returned no error (the actual
generation path never returns an empty error message). -/
theorem C9_testConnection_behavior :
    (∀ gen, testConnection [] gen = ((false, noModelsMsg), [])) ∧
    (∀ (gen : Str → List ChatMessage → CompletionResponse) (m : Str) (ms : List Str),
        (∀ m2 msgs, (gen m2 msgs).error ≠ some []) →
        (testConnection (m :: ms) gen).2 = [(m, [⟨userRole, hiText⟩])] ∧
        ((testConnection (m :: ms) gen).1.1 = true ↔
          (gen m [⟨userRole, hiText⟩]).error = none)) := by
  refine ⟨fun gen => rfl, ?_⟩
  intro gen m ms hne
  cases hr : (gen m [⟨userRole, hiText⟩]).error with
  | none =>
    have heq : testConnection (m :: ms) gen = ((true, connectedMsg), [(m, [⟨userRole, hiText⟩])]) := by
      simp only [testConnection, hr]
    rw [heq]
    exact ⟨rfl, by simp [hr]⟩
  | some e =>
    have he : ¬ e = [] := by
      intro g
      exact hne m [⟨userRole, hiText⟩] (by rw [hr, g])
    have heq : testConnection (m :: ms) gen = ((false, e), [(m, [⟨userRole, hiText⟩])]) := by
      simp only [testConnection, hr, if_neg he]
    rw [heq]
    refine ⟨rfl, ?_⟩
    simp [hr]

theorem C9_testConnection_behavior_wit :
    (testConnection ["m1".toList] (fun _ _ => ⟨"ok".toList, none, none⟩)).2 =
      [("m1".toList, [⟨userRole, hiText⟩])] ∧
    ((testConnection ["m1".toList] (fun _ _ => ⟨"ok".toList, none, none⟩)).1.1 = true ↔
      ((fun _ _ => ⟨"ok".toList, none, none⟩ :
          Str → List ChatMessage → CompletionResponse) "m1".toList [⟨userRole, hiText⟩]).error = none) :=
  C9_testConnection_behavior.2 (fun _ _ => ⟨"ok".toList, none, none⟩) "m1".toList []
    (fun _ _ => by simp)

/-- Claim C10: placeholder detection scans the concatenation of the two
templates, so a system template ending in an unclosed open brace and a user
template starting with the matching close produce a detected name that
neither template contains alone — the result is not the union of
independent per-template scans. -/
theorem C10_detect_concat_not_union :
    detectedVariables sysFragT usrFragT = [abName] ∧
    detectedVariables sysFragT [] = [] ∧
    detectedVariables [] usrFragT = [] ∧
    detectedVariables sysFragT usrFragT ≠
      detectedVariables sysFragT [] ++ detectedVariables [] usrFragT := by
  exact ⟨by decide, by decide, by decide, by decide⟩

/-- Claim C6, counterexample: a decodable error body whose `error.message`
is present but empty does not yield that field's value — the JS truthiness
fallback substitutes the generic status-code message, so "taken from the
nested error.message field when decodable" fails at this input. -/
theorem C6_errmsg_empty_cex :
    generateStream (NetOutcome.response false 400 (some emptyMsgBody) none) =
      [errChunk (httpErrorMsg 400)] ∧ httpErrorMsg 400 ≠ [] :=
  ⟨rfl, by decide⟩
